import Mathlib

/-!
Verification of the ingredient-safety resolution and composite scoring
pipeline (model2.py / model3.py of the repository).

The Python source is shallowly embedded: strings become `String`, lists
become `List`, Python `float` values that the code only ever compares,
adds, divides and rounds become `ℚ`, dictionaries become association
lists or structures, and raised exceptions become `Except`.  Each
definition mirrors one Python function and is named after it (the
leading underscore of the private model3 helpers is dropped, since Lean
reserves identifiers that start with an underscore).
-/

namespace FoodSafety

/-! ## Text normalizer (model2.py, `clean_text`) -/

/-- Python `str.lower()` applied character-wise (Lean's `Char.toLower`
performs the same ASCII mapping that matters here). -/
def pyLower (s : String) : String := String.mk (s.data.map Char.toLower)

/-- The regex character class `[a-z0-9\s]` of `clean_text`
(model2.py line 15). -/
def isAllowed (c : Char) : Bool :=
  (('a' ≤ c && c ≤ 'z') || ('0' ≤ c && c ≤ '9') || c.isWhitespace)

/-- One character of the lowering/substitution pass of `clean_text`:
`text.lower()` followed by `re.sub(r"[^a-z0-9\s]", " ", text)`, applied
character-wise (both operations act independently on each character). -/
def cleanChar (c : Char) : Char :=
  if isAllowed c.toLower then c.toLower else ' '

/-- Python `str.split()` (split on whitespace, discard empty pieces) on a
character list.  `acc` holds the characters of the word currently being
read, in reverse. -/
def splitWsAux : List Char → List Char → List (List Char)
  | [], acc => if acc.isEmpty then [] else [acc.reverse]
  | c :: cs, acc =>
    if c.isWhitespace then
      if acc.isEmpty then splitWsAux cs [] else acc.reverse :: splitWsAux cs []
    else splitWsAux cs (c :: acc)

/-- Python `str.split()` for strings. -/
def pySplit (s : String) : List String := (splitWsAux s.data []).map String.mk

/-- Join words with single spaces (Python `" ".join(words)`). -/
def joinSp : List (List Char) → List Char
  | [] => []
  | [w] => w
  | w :: w' :: ws => w ++ ' ' :: joinSp (w' :: ws)

/-- Source `clean_text` (model2.py lines 13-17): lower-case, replace every
character outside `[a-z0-9\s]` by a space, collapse whitespace runs to a
single space and strip the ends.  The last two steps,
`re.sub(r"\s+", " ", text).strip()`, are exactly
`" ".join(text.split())`, which is how they are rendered here. -/
def clean_text (s : String) : String :=
  String.mk (joinSp (splitWsAux (s.data.map cleanChar) []))

/-- A character the normalizer may keep inside a word: `[a-z0-9]`. -/
def GoodChar (c : Char) : Prop :=
  ('a' ≤ c ∧ c ≤ 'z') ∨ ('0' ≤ c ∧ c ≤ '9')

theorem cleanChar_good (c : Char) :
    GoodChar (cleanChar c) ∨ (cleanChar c).isWhitespace = true := by
  unfold cleanChar
  split
  · rename_i h
    simp only [isAllowed, Bool.or_eq_true, Bool.and_eq_true, decide_eq_true_eq] at h
    rcases h with (⟨h1, h2⟩ | ⟨h1, h2⟩) | h
    · exact Or.inl (Or.inl ⟨h1, h2⟩)
    · exact Or.inl (Or.inr ⟨h1, h2⟩)
    · exact Or.inr h
  · exact Or.inr (by decide)

theorem goodChar_not_ws {c : Char} (h : GoodChar c) : c.isWhitespace = false := by
  rcases h with ⟨h1, h2⟩ | ⟨h1, h2⟩ <;>
  · simp only [Char.isWhitespace]
    by_contra hb
    simp only [Bool.not_eq_false, Bool.or_eq_true, decide_eq_true_eq] at hb
    rcases hb with ((he | he) | he) | he <;> (subst he; revert h1 h2; decide)

theorem goodChar_ne_space {c : Char} (h : GoodChar c) : c ≠ ' ' := by
  intro he
  have := goodChar_not_ws h
  subst he
  simp at this

/-- Every word produced by `splitWsAux` is nonempty and consists of
non-whitespace characters satisfying any property `P` that holds of all
non-whitespace characters of the input. -/
theorem splitWsAux_words (P : Char → Prop) :
    ∀ (l acc : List Char),
      (∀ c ∈ l, P c ∨ c.isWhitespace = true) →
      (∀ c ∈ acc, P c ∧ c.isWhitespace = false) →
      ∀ w ∈ splitWsAux l acc, w ≠ [] ∧ ∀ c ∈ w, P c ∧ c.isWhitespace = false := by
  intro l
  induction l with
  | nil =>
    intro acc _ hacc w hw
    simp only [splitWsAux] at hw
    split at hw
    · simp at hw
    · rename_i hne
      simp only [List.mem_singleton] at hw
      subst hw
      refine ⟨?_, ?_⟩
      · simp only [ne_eq, List.reverse_eq_nil_iff]
        intro h; rw [h] at hne; simp at hne
      · intro c hc
        exact hacc c (List.mem_reverse.mp hc)
  | cons c cs ih =>
    intro acc hl hacc w hw
    simp only [splitWsAux] at hw
    by_cases hws : c.isWhitespace = true
    · rw [if_pos hws] at hw
      split at hw
      · exact ih [] (fun d hd => hl d (List.mem_cons_of_mem _ hd)) (by simp) w hw
      · rename_i hne
        rcases List.mem_cons.mp hw with hw | hw
        · subst hw
          refine ⟨?_, fun d hd => hacc d (List.mem_reverse.mp hd)⟩
          simp only [ne_eq, List.reverse_eq_nil_iff]
          intro h; rw [h] at hne; simp at hne
        · exact ih [] (fun d hd => hl d (List.mem_cons_of_mem _ hd)) (by simp) w hw
    · rw [if_neg hws] at hw
      have hPc : P c := by
        rcases hl c (List.mem_cons_self _ _) with h | h
        · exact h
        · exact absurd h hws
      refine ih (c :: acc) (fun d hd => hl d (List.mem_cons_of_mem _ hd)) ?_ w hw
      intro d hd
      rcases List.mem_cons.mp hd with hd | hd
      · subst hd; exact ⟨hPc, by simpa using hws⟩
      · exact hacc d hd

theorem mem_joinSp {c : Char} :
    ∀ {ws : List (List Char)}, c ∈ joinSp ws → c = ' ' ∨ ∃ w ∈ ws, c ∈ w := by
  intro ws
  induction ws with
  | nil => intro h; simp [joinSp] at h
  | cons w ws ih =>
    intro h
    cases ws with
    | nil =>
      simp only [joinSp] at h
      exact Or.inr ⟨w, by simp, h⟩
    | cons w' ws' =>
      simp only [joinSp, List.mem_append, List.mem_cons] at h
      rcases h with h | h | h
      · exact Or.inr ⟨w, by simp, h⟩
      · exact Or.inl h
      · rcases ih h with h | ⟨u, hu, hcu⟩
        · exact Or.inl h
        · exact Or.inr ⟨u, List.mem_cons_of_mem _ hu, hcu⟩

theorem joinSp_ne_nil {w : List Char} {ws : List (List Char)} (hw : w ≠ []) :
    joinSp (w :: ws) ≠ [] := by
  cases ws with
  | nil => simpa [joinSp] using hw
  | cons w' ws' => simp [joinSp]

theorem joinSp_head? {w : List Char} {ws : List (List Char)} (hw : w ≠ []) :
    (joinSp (w :: ws)).head? = w.head? := by
  cases ws with
  | nil => rfl
  | cons w' ws' =>
    rcases w with _ | ⟨a, w⟩
    · exact absurd rfl hw
    · simp [joinSp]

theorem joinSp_getLast? :
    ∀ (ws : List (List Char)), ws ≠ [] → (∀ u ∈ ws, u ≠ []) →
      ∃ u ∈ ws, (joinSp ws).getLast? = u.getLast? := by
  intro ws
  induction ws with
  | nil => intro h; exact absurd rfl h
  | cons w ws ih =>
    intro _ hne
    cases ws with
    | nil => exact ⟨w, by simp, rfl⟩
    | cons w' ws' =>
      obtain ⟨u, hu, he⟩ := ih (by simp) (fun v hv => hne v (List.mem_cons_of_mem _ hv))
      refine ⟨u, List.mem_cons_of_mem _ hu, ?_⟩
      have hnil : joinSp (w' :: ws') ≠ [] :=
        joinSp_ne_nil (hne w' (by simp))
      calc (joinSp (w :: w' :: ws')).getLast?
          = (w ++ ' ' :: joinSp (w' :: ws')).getLast? := rfl
        _ = (' ' :: joinSp (w' :: ws')).getLast? := by
            rw [List.getLast?_append]
            rcases List.exists_cons_of_ne_nil hnil with ⟨a, t, ht⟩
            simp [ht, List.getLast?_cons]
        _ = (joinSp (w' :: ws')).getLast? := by
            rcases List.exists_cons_of_ne_nil hnil with ⟨a, t, ht⟩
            simp [ht, List.getLast?_cons]
        _ = u.getLast? := he

theorem chain'_of_no_space {w : List Char} (hw : ' ' ∉ w) :
    List.Chain' (fun a b => ¬(a = ' ' ∧ b = ' ')) w := by
  refine List.Pairwise.chain' (List.pairwise_of_forall_mem_list ?_)
  intro a ha b _
  intro ⟨ha', _⟩
  exact hw (ha' ▸ ha)

theorem joinSp_chain' :
    ∀ (ws : List (List Char)), (∀ w ∈ ws, w ≠ [] ∧ ' ' ∉ w) →
      List.Chain' (fun a b => ¬(a = ' ' ∧ b = ' ')) (joinSp ws) := by
  intro ws
  induction ws with
  | nil => intro _; simp [joinSp]
  | cons w ws ih =>
    intro h
    cases ws with
    | nil => exact chain'_of_no_space (h w (by simp)).2
    | cons w' ws' =>
      have hw := h w (by simp)
      have hw' := h w' (by simp)
      have hrest : List.Chain' (fun a b => ¬(a = ' ' ∧ b = ' ')) (joinSp (w' :: ws')) :=
        ih (fun u hu => h u (List.mem_cons_of_mem _ hu))
      show List.Chain' _ (w ++ ' ' :: joinSp (w' :: ws'))
      rw [List.chain'_append]
      refine ⟨chain'_of_no_space hw.2, ?_, ?_⟩
      · rw [List.chain'_cons']
        refine ⟨?_, hrest⟩
        intro y hy
        rw [joinSp_head? hw'.1] at hy
        intro ⟨_, hy'⟩
        subst hy'
        exact hw'.2 (List.mem_of_mem_head? hy)
      · intro x hx y hy
        simp only [List.head?_cons, Option.mem_def, Option.some_inj] at hy
        intro ⟨hx', _⟩
        subst hx'
        exact hw.2 (List.mem_of_mem_getLast? hx)

/-- Characters of `clean_text s` are lowercase letters, digits or single
spaces; used by several claims. -/
theorem clean_text_chars (s : String) :
    ∀ c ∈ (clean_text s).data, GoodChar c ∨ c = ' ' := by
  intro c hc
  simp only [clean_text] at hc
  rcases mem_joinSp hc with h | ⟨w, hw, hcw⟩
  · exact Or.inr h
  · have := splitWsAux_words GoodChar (s.data.map cleanChar) []
      (by intro d hd
          rcases List.mem_map.mp hd with ⟨e, _, he⟩
          exact he ▸ cleanChar_good e)
      (by simp) w hw
    exact Or.inl (this.2 c hcw).1

/-- C8: `clean_text` lower-cases its input, strips every character outside
`[a-z0-9\s]`, collapses whitespace runs to a single space and trims the
ends.  Stated as: the empty string maps to itself; every output character
is a lowercase letter, a digit or a space (so nothing outside the class,
and nothing uppercase, survives); no two consecutive output characters
are both spaces (runs are collapsed); and the output neither starts nor
ends with a space (trimmed).  Totality and determinism hold because
`clean_text` is a total Lean function. -/
theorem C8_clean_text_normalizes :
    clean_text "" = ""
    ∧ (∀ s : String, ∀ c ∈ (clean_text s).data,
        ('a' ≤ c ∧ c ≤ 'z') ∨ ('0' ≤ c ∧ c ≤ '9') ∨ c = ' ')
    ∧ (∀ s : String,
        List.Chain' (fun a b => ¬(a = ' ' ∧ b = ' ')) (clean_text s).data)
    ∧ (∀ s : String, (clean_text s).data.head? ≠ some ' '
        ∧ (clean_text s).data.getLast? ≠ some ' ') := by
  have hwords : ∀ s : String, ∀ w ∈ splitWsAux (s.data.map cleanChar) [],
      w ≠ [] ∧ ∀ c ∈ w, GoodChar c ∧ c.isWhitespace = false := by
    intro s
    exact splitWsAux_words GoodChar (s.data.map cleanChar) []
      (by intro d hd
          rcases List.mem_map.mp hd with ⟨e, _, he⟩
          exact he ▸ cleanChar_good e)
      (by simp)
  refine ⟨rfl, ?_, ?_, ?_⟩
  · intro s c hc
    rcases clean_text_chars s c hc with h | h
    · rcases h with h | h
      · exact Or.inl h
      · exact Or.inr (Or.inl h)
    · exact Or.inr (Or.inr h)
  · intro s
    simp only [clean_text]
    refine joinSp_chain' _ ?_
    intro w hw
    obtain ⟨hne, hchars⟩ := hwords s w hw
    refine ⟨hne, fun hsp => ?_⟩
    exact goodChar_ne_space (hchars ' ' hsp).1 rfl
  · intro s
    simp only [clean_text]
    cases hsplit : splitWsAux (s.data.map cleanChar) [] with
    | nil => simp [joinSp]
    | cons w ws =>
      have hw := hwords s w (by rw [hsplit]; simp)
      constructor
      · rw [joinSp_head? hw.1]
        intro hh
        exact goodChar_ne_space (hw.2 ' ' (List.mem_of_mem_head? hh)).1 rfl
      · obtain ⟨u, hu, he⟩ := joinSp_getLast? (w :: ws) (by simp)
          (fun v hv => (hwords s v (by rw [hsplit]; exact hv)).1)
        rw [he]
        intro hh
        have hv := hwords s u (by rw [hsplit]; exact hu)
        exact goodChar_ne_space (hv.2 ' ' (List.mem_of_mem_getLast? hh)).1 rfl

/-! ## Score aggregator (model3.py)

Python floats are embedded as exact rationals.  `round(x, 2)` becomes
`round2` below; Mathlib's `round` rounds halves up while Python rounds
halves to even on binary floats, but no claim below depends on a tie. -/

/-- Python `round(x, 2)`. -/
def round2 (q : ℚ) : ℚ := ((round (q * 100) : ℤ) : ℚ) / 100

/-- One element of model2's `ingredient_analysis` list:
`{"name": ..., "status": ..., "reason": ...}`. -/
structure Finding where
  name : String
  status : String
  reason : String
deriving DecidableEq

/-- The weight lookup of `_compute_ingredient_score` (model3.py line 20-23):
`{'safe': 1, 'caution': 0, 'unsafe': -1, 'unknown': 0}.get(str(status).lower(), 0)`,
rendered as the equivalent chain of key comparisons with default 0. -/
def statusWeight (s : String) : ℤ :=
  if pyLower s = "safe" then 1
  else if pyLower s = "caution" then 0
  else if pyLower s = "unsafe" then -1
  else if pyLower s = "unknown" then 0
  else 0

/-- Source `_compute_ingredient_score` (model3.py lines 12-27). -/
def compute_ingredient_score (ingredient_analysis : List Finding) : ℚ :=
  if ingredient_analysis = [] then 5
  else
    let raw : ℤ := (ingredient_analysis.map (fun ing => statusWeight ing.status)).sum
    let n : ℕ := ingredient_analysis.length
    round2 (((raw : ℚ) + (n : ℚ)) / (2 * (n : ℚ)) * 10)

/-- Python `nutrition_info.get(key, 0) or 0` on a numeric nutrition dict
(a key may be absent, or present with value `None` — both give 0). -/
def dictGetNum (d : List (String × Option ℚ)) (k : String) : ℚ :=
  match d.find? (fun kv => kv.1 == k) with
  | some kv => kv.2.getD 0
  | none => 0

/-- Source `_compute_nutrition_score_from_values` (model3.py lines 30-50).
The empty association list stands for Python's empty (falsy) dict. -/
def compute_nutrition_score_from_values
    (nutrition_info : List (String × Option ℚ)) : ℚ :=
  if nutrition_info = [] then 5
  else
    let sugar := dictGetNum nutrition_info "sugar_g"
    let sodium := dictGetNum nutrition_info "sodium_mg"
    let fat := dictGetNum nutrition_info "total_fat_g"
    let protein := dictGetNum nutrition_info "protein_g"
    let base : ℚ := 5
    let sugar_penalty := min (sugar / 10) (5/2)
    let sodium_penalty := min (sodium / 500) 2
    let fat_penalty := min (fat / 10) (3/2)
    let protein_bonus := min (protein / 5) 2
    let adj := -sugar_penalty - sodium_penalty - fat_penalty + protein_bonus
    round2 (max 0 (min 10 (base + adj)))

/-- Source `_compute_nutrition_score_from_pros_cons` (model3.py lines 53-62). -/
def compute_nutrition_score_from_pros_cons
    (nutrition_pros nutrition_cons : List String) : ℚ :=
  round2 (max 0 (min 10
    (5 + (nutrition_pros.length : ℚ) * (1/2) - (nutrition_cons.length : ℚ) * (7/10))))

/-- The nutrition-branch selection of `compute_safety_score`
(model3.py lines 87-92): a truthy (nonempty) numeric dict wins, otherwise
pros/cons with `None` defaulting to `[]` (`pros = nutrition_pros or []`). -/
def nutri_sub_score (nutrition_info : List (String × Option ℚ))
    (nutrition_pros nutrition_cons : Option (List String)) : ℚ :=
  if nutrition_info ≠ [] then compute_nutrition_score_from_values nutrition_info
  else compute_nutrition_score_from_pros_cons
    (nutrition_pros.getD []) (nutrition_cons.getD [])

/-- Source `compute_safety_score` (model3.py lines 65-102).  `nutrition_info = []`
stands for Python's `None` or `{}` (both falsy, and the dict is only read
when truthy, so the two are observationally equal here). -/
def compute_safety_score (ingredient_analysis : List Finding)
    (nutrition_info : List (String × Option ℚ) := [])
    (nutrition_pros nutrition_cons : Option (List String) := none)
    (weight_ingredient : ℚ := 6/10) (weight_nutrition : ℚ := 4/10) : ℚ :=
  let ingr_score := compute_ingredient_score ingredient_analysis
  let nutri_score := nutri_sub_score nutrition_info nutrition_pros nutrition_cons
  let total_w := if weight_ingredient + weight_nutrition ≠ 0
    then weight_ingredient + weight_nutrition else 1
  let w_ing := weight_ingredient / total_w
  let w_nut := weight_nutrition / total_w
  round2 (max 0 (min 10 (ingr_score * w_ing + nutri_score * w_nut)))

/-! ### Rounding lemmas -/

theorem round2_intCast_div (k : ℤ) : round2 ((k : ℚ) / 100) = (k : ℚ) / 100 := by
  unfold round2
  rw [div_mul_cancel₀ _ (by norm_num : (100 : ℚ) ≠ 0)]
  rw [round_intCast]

theorem round2_zero : round2 0 = 0 := by
  simp [round2]

theorem round2_nonneg {q : ℚ} (h : 0 ≤ q) : 0 ≤ round2 q := by
  unfold round2
  have h1 : (0 : ℤ) ≤ round (q * 100) := by
    rw [round_eq]
    exact Int.floor_nonneg.mpr (by linarith)
  positivity

theorem round2_le_ten {q : ℚ} (h : q ≤ 10) : round2 q ≤ 10 := by
  unfold round2
  have h1 : round (q * 100) ≤ 1000 := by
    rw [round_eq]
    have : ⌊(1000 : ℚ) + 1/2⌋ = 1000 := by
      rw [Int.floor_eq_iff]
      norm_num
    calc ⌊q * 100 + 1/2⌋ ≤ ⌊(1000 : ℚ) + 1/2⌋ := Int.floor_mono (by linarith)
      _ = 1000 := this
  have h2 : ((round (q * 100) : ℤ) : ℚ) ≤ 1000 := by exact_mod_cast h1
  linarith

theorem round2_bounds {q : ℚ} (h0 : 0 ≤ q) (h10 : q ≤ 10) :
    0 ≤ round2 q ∧ round2 q ≤ 10 :=
  ⟨round2_nonneg h0, round2_le_ten h10⟩

/-! ### Sub-score bounds (shared helpers) -/

theorem statusWeight_bounds (s : String) :
    -1 ≤ statusWeight s ∧ statusWeight s ≤ 1 := by
  unfold statusWeight
  split_ifs <;> norm_num

theorem sum_statusWeight_bounds (l : List Finding) :
    -(l.length : ℤ) ≤ (l.map (fun ing => statusWeight ing.status)).sum
    ∧ (l.map (fun ing => statusWeight ing.status)).sum ≤ (l.length : ℤ) := by
  induction l with
  | nil => simp
  | cons f l ih =>
    have hf := statusWeight_bounds f.status
    simp only [List.map_cons, List.sum_cons, List.length_cons]
    push_cast
    constructor <;> linarith [ih.1, ih.2, hf.1, hf.2]

theorem ingredient_score_bounds (l : List Finding) :
    0 ≤ compute_ingredient_score l ∧ compute_ingredient_score l ≤ 10 := by
  unfold compute_ingredient_score
  split
  · norm_num
  · rename_i hne
    have hlen : 0 < l.length := List.length_pos.mpr hne
    have hlenQ : (0 : ℚ) < (l.length : ℚ) := by exact_mod_cast hlen
    obtain ⟨hlo, hhi⟩ := sum_statusWeight_bounds l
    set raw := (l.map (fun ing => statusWeight ing.status)).sum with hraw
    have hloQ : -(l.length : ℚ) ≤ (raw : ℚ) := by exact_mod_cast hlo
    have hhiQ : (raw : ℚ) ≤ (l.length : ℚ) := by exact_mod_cast hhi
    have hnum0 : 0 ≤ (raw : ℚ) + (l.length : ℚ) := by linarith
    have hden : (0 : ℚ) < 2 * (l.length : ℚ) := by linarith
    have hq0 : 0 ≤ ((raw : ℚ) + (l.length : ℚ)) / (2 * (l.length : ℚ)) * 10 := by
      have := div_nonneg hnum0 (le_of_lt hden)
      linarith
    have hq10 : ((raw : ℚ) + (l.length : ℚ)) / (2 * (l.length : ℚ)) * 10 ≤ 10 := by
      have h1 : ((raw : ℚ) + (l.length : ℚ)) / (2 * (l.length : ℚ)) ≤ 1 :=
        (div_le_one hden).mpr (by linarith)
      linarith
    exact round2_bounds hq0 hq10

theorem clamp_bounds (x : ℚ) : 0 ≤ max 0 (min 10 x) ∧ max 0 (min 10 x) ≤ 10 :=
  ⟨le_max_left 0 _, max_le (by norm_num) (min_le_left 10 x)⟩

theorem values_score_bounds (d : List (String × Option ℚ)) :
    0 ≤ compute_nutrition_score_from_values d
    ∧ compute_nutrition_score_from_values d ≤ 10 := by
  unfold compute_nutrition_score_from_values
  split
  · norm_num
  · obtain ⟨h0, h10⟩ := clamp_bounds
      (5 + (-min (dictGetNum d "sugar_g" / 10) (5/2)
        - min (dictGetNum d "sodium_mg" / 500) 2
        - min (dictGetNum d "total_fat_g" / 10) (3/2)
        + min (dictGetNum d "protein_g" / 5) 2))
    exact round2_bounds h0 h10

theorem proscons_score_bounds (pros cons : List String) :
    0 ≤ compute_nutrition_score_from_pros_cons pros cons
    ∧ compute_nutrition_score_from_pros_cons pros cons ≤ 10 := by
  unfold compute_nutrition_score_from_pros_cons
  obtain ⟨h0, h10⟩ := clamp_bounds
    (5 + (pros.length : ℚ) * (1/2) - (cons.length : ℚ) * (7/10))
  exact round2_bounds h0 h10

theorem nutri_sub_score_bounds (d : List (String × Option ℚ))
    (np nc : Option (List String)) :
    0 ≤ nutri_sub_score d np nc ∧ nutri_sub_score d np nc ≤ 10 := by
  unfold nutri_sub_score
  split
  · exact values_score_bounds d
  · exact proscons_score_bounds _ _

theorem safety_score_bounds (l : List Finding) (d : List (String × Option ℚ))
    (np nc : Option (List String)) (wi wn : ℚ) :
    0 ≤ compute_safety_score l d np nc wi wn
    ∧ compute_safety_score l d np nc wi wn ≤ 10 := by
  unfold compute_safety_score
  obtain ⟨h0, h10⟩ := clamp_bounds
    (compute_ingredient_score l * (wi / if wi + wn ≠ 0 then wi + wn else 1)
      + nutri_sub_score d np nc * (wn / if wi + wn ≠ 0 then wi + wn else 1))
  exact round2_bounds h0 h10

/-- Each branch of `nutri_sub_score` ends in `round2`, so the sub-score is
an integer number of hundredths. -/
theorem nutri_sub_score_int (d : List (String × Option ℚ))
    (np nc : Option (List String)) :
    ∃ k : ℤ, nutri_sub_score d np nc = (k : ℚ) / 100 := by
  unfold nutri_sub_score compute_nutrition_score_from_values
    compute_nutrition_score_from_pros_cons
  split
  · exact ⟨_, rfl⟩
  · exact ⟨_, rfl⟩

/-- The tier→weight map exactly as the spec words it
(`{safe: +1, caution: 0, unsafe: −1, unknown: 0}`), for comparison with
the source's `statusWeight`. -/
def claimTierWeight (t : String) : ℤ :=
  if t = "safe" then 1
  else if t = "caution" then 0
  else if t = "unsafe" then -1
  else 0

theorem sum_eq_neg_length {l : List Finding}
    (h : ∀ f ∈ l, statusWeight f.status = -1) :
    (l.map fun ing => statusWeight ing.status).sum = -(l.length : ℤ) := by
  induction l with
  | nil => simp
  | cons f l ih =>
    simp only [List.map_cons, List.sum_cons, List.length_cons]
    rw [h f (List.mem_cons_self _ _), ih (fun g hg => h g (List.mem_cons_of_mem _ hg))]
    push_cast
    ring

theorem sum_eq_length {l : List Finding}
    (h : ∀ f ∈ l, statusWeight f.status = 1) :
    (l.map fun ing => statusWeight ing.status).sum = (l.length : ℤ) := by
  induction l with
  | nil => simp
  | cons f l ih =>
    simp only [List.map_cons, List.sum_cons, List.length_cons]
    rw [h f (List.mem_cons_self _ _), ih (fun g hg => h g (List.mem_cons_of_mem _ hg))]
    push_cast
    ring

theorem round2_ten : round2 10 = 10 := by
  have h := round2_intCast_div 1000
  norm_num at h
  exact h

/-- C1: the ingredient sub-score is 5.0 on an empty findings list;
otherwise it is `((raw + n) / (2n)) * 10` rounded to two decimals, where
`raw` sums the claim's tier weights (safe +1, caution 0, unsafe −1,
unknown 0) and `n` is the finding count; consequently an all-unsafe list
scores 0 and an all-safe list scores 10. -/
theorem C1_ingredient_score_formula :
    compute_ingredient_score [] = 5
    ∧ (∀ l : List Finding, l ≠ [] →
        (∀ f ∈ l, f.status = "safe" ∨ f.status = "caution"
          ∨ f.status = "unsafe" ∨ f.status = "unknown") →
        compute_ingredient_score l =
          round2 ((((l.map fun f => claimTierWeight f.status).sum : ℚ) + (l.length : ℚ))
            / (2 * (l.length : ℚ)) * 10))
    ∧ (∀ l : List Finding, l ≠ [] → (∀ f ∈ l, f.status = "unsafe") →
        compute_ingredient_score l = 0)
    ∧ (∀ l : List Finding, l ≠ [] → (∀ f ∈ l, f.status = "safe") →
        compute_ingredient_score l = 10) := by
  refine ⟨rfl, ?_, ?_, ?_⟩
  · intro l hne hst
    unfold compute_ingredient_score
    rw [if_neg hne]
    have hmap : (l.map fun ing => statusWeight ing.status)
        = l.map fun f => claimTierWeight f.status := by
      refine List.map_congr_left ?_
      intro f hf
      rcases hst f hf with h | h | h | h <;> (rw [h]; decide)
    rw [hmap]
  · intro l hne h
    unfold compute_ingredient_score
    rw [if_neg hne]
    have hsum : (l.map fun ing => statusWeight ing.status).sum = -(l.length : ℤ) :=
      sum_eq_neg_length (fun f hf => by rw [h f hf]; decide)
    rw [hsum]
    dsimp only
    have h0 : ((-(l.length : ℤ) : ℤ) : ℚ) + (l.length : ℚ) = 0 := by
      push_cast; ring
    rw [h0, zero_div, zero_mul, round2_zero]
  · intro l hne h
    unfold compute_ingredient_score
    rw [if_neg hne]
    have hsum : (l.map fun ing => statusWeight ing.status).sum = (l.length : ℤ) :=
      sum_eq_length (fun f hf => by rw [h f hf]; decide)
    rw [hsum]
    dsimp only
    have hlen : (0 : ℚ) < (l.length : ℚ) := by
      exact_mod_cast List.length_pos.mpr hne
    have h2 : (((l.length : ℤ) : ℤ) : ℚ) + (l.length : ℚ) = 2 * (l.length : ℚ) := by
      push_cast; ring
    rw [h2, div_self (by linarith : 2 * (l.length : ℚ) ≠ 0), one_mul, round2_ten]

/-- Witness for C1: a single unsafe finding scores 0, a single safe
finding scores 10. -/
theorem C1_ingredient_score_formula_witness :
    compute_ingredient_score [⟨"Lead", "unsafe", "toxic"⟩] = 0
    ∧ compute_ingredient_score [⟨"Water", "safe", "fine"⟩] = 10 := by
  constructor
  · exact C1_ingredient_score_formula.2.2.1 [⟨"Lead", "unsafe", "toxic"⟩]
      (by simp) (by intro f hf; simp only [List.mem_singleton] at hf; subst hf; rfl)
  · exact C1_ingredient_score_formula.2.2.2 [⟨"Water", "safe", "fine"⟩]
      (by simp) (by intro f hf; simp only [List.mem_singleton] at hf; subst hf; rfl)

/-- C2: for arbitrary findings (any status strings) and arbitrary
nutrition input (numeric dict or pros/cons lists), the ingredient
sub-score, the nutrition sub-score (in both of its modes) and the final
combined score all lie in [0, 10] — the final score for every choice of
weights. -/
theorem C2_scores_in_range :
    (∀ l : List Finding,
      0 ≤ compute_ingredient_score l ∧ compute_ingredient_score l ≤ 10)
    ∧ (∀ d : List (String × Option ℚ),
      0 ≤ compute_nutrition_score_from_values d
        ∧ compute_nutrition_score_from_values d ≤ 10)
    ∧ (∀ pros cons : List String,
      0 ≤ compute_nutrition_score_from_pros_cons pros cons
        ∧ compute_nutrition_score_from_pros_cons pros cons ≤ 10)
    ∧ (∀ (d : List (String × Option ℚ)) (np nc : Option (List String)),
      0 ≤ nutri_sub_score d np nc ∧ nutri_sub_score d np nc ≤ 10)
    ∧ (∀ (l : List Finding) (d : List (String × Option ℚ))
        (np nc : Option (List String)) (wi wn : ℚ),
      0 ≤ compute_safety_score l d np nc wi wn
        ∧ compute_safety_score l d np nc wi wn ≤ 10) :=
  ⟨ingredient_score_bounds, values_score_bounds, proscons_score_bounds,
    nutri_sub_score_bounds, safety_score_bounds⟩

/-- C3: `compute_safety_score` normalizes the weights: with
`weight_ingredient = 0, weight_nutrition = 1` it returns exactly the
nutrition sub-score (for every input), and with both weights zero the
degenerate path makes the total weight 1 and the result 0 — division by
zero never occurs (all arithmetic is on exact rationals and the `≠ 0`
guard of the source is modelled verbatim). -/
theorem C3_weight_normalization :
    (∀ (l : List Finding) (d : List (String × Option ℚ))
        (np nc : Option (List String)),
      compute_safety_score l d np nc 0 1 = nutri_sub_score d np nc)
    ∧ (∀ (l : List Finding) (d : List (String × Option ℚ))
        (np nc : Option (List String)),
      compute_safety_score l d np nc 0 0 = 0) := by
  constructor
  · intro l d np nc
    unfold compute_safety_score
    rw [if_pos (by norm_num : (0 : ℚ) + 1 ≠ 0)]
    dsimp only
    have harith : compute_ingredient_score l * (0 / ((0 : ℚ) + 1))
        + nutri_sub_score d np nc * (1 / ((0 : ℚ) + 1))
        = nutri_sub_score d np nc := by
      ring
    rw [harith]
    obtain ⟨h0, h10⟩ := nutri_sub_score_bounds d np nc
    rw [min_eq_right h10, max_eq_right h0]
    obtain ⟨k, hk⟩ := nutri_sub_score_int d np nc
    rw [hk, round2_intCast_div]
  · intro l d np nc
    unfold compute_safety_score
    rw [if_neg (by norm_num : ¬((0 : ℚ) + 0 ≠ 0))]
    dsimp only
    have harith : compute_ingredient_score l * (0 / (1 : ℚ))
        + nutri_sub_score d np nc * (0 / (1 : ℚ)) = 0 := by
      ring
    rw [harith]
    rw [min_eq_right (by norm_num : (0 : ℚ) ≤ 10), max_self, round2_zero]

/-! ## Nutrient evaluator (model2.py, `evaluate_nutrition`) -/

/-- A value of the nutrition dict: a number, a text, or Python `None`
(`pd.isna`). -/
inductive NutriVal where
  | num (q : ℚ)
  | str (s : String)
  | null
deriving DecidableEq

/-- One row of the nutrition-standards table (`nutrition_df`), with the
`float(...)` coercions of lines 67-68 already applied to the thresholds. -/
structure ThresholdEntry where
  nutrient : String
  low_threshold : ℚ
  high_threshold : ℚ
  note : String
deriving DecidableEq

/-- The two ways the value coercion of line 66 can raise: `re.findall`
finds no `[\d.]+` substring (IndexError on `[0]` — the spec's
ParseError), or the extracted run is not a valid float literal
(ValueError). -/
inductive ParseErr where
  | noNumeric (s : String)
  | badFloat (s : String)
deriving DecidableEq

/-- Python `nutrient in nutrition_input` / `nutrition_input[nutrient]`
on the nutrition dict, embedded as an association list. -/
def dictLookup (input : List (String × NutriVal)) (k : String) : Option NutriVal :=
  (input.find? (fun kv => kv.1 == k)).map (fun kv => kv.2)

/-- A character of the regex class `[\d\.]`. -/
def isNumChar (c : Char) : Bool := c.isDigit || c = '.'

/-- Python `re.findall(r"[\d\.]+", s)[0]`: the first maximal run of digits and
dots, `none` when the string has no such character. -/
def firstRun (l : List Char) : Option (List Char) :=
  match l.dropWhile (fun c => !(isNumChar c)) with
  | [] => none
  | c :: cs => some (c :: cs.takeWhile isNumChar)

/-- Decimal value of a digit string. -/
def digitsVal (l : List Char) : ℕ :=
  l.foldl (fun n c => 10 * n + (c.toNat - '0'.toNat)) 0

/-- Python `float(...)` on a nonempty string of digits and dots: valid
with no dot (`"12"`) or one dot and at least one digit (`"12.5"`,
`"12."`, `".5"`); `"."` or several dots raise ValueError. -/
def pyFloatOfRun (run : List Char) : Option ℚ :=
  if run.count '.' = 0 then some (digitsVal run)
  else if run.count '.' = 1 then
    let intPart := run.takeWhile (fun c => c ≠ '.')
    let fracPart := (run.dropWhile (fun c => c ≠ '.')).drop 1
    if intPart.isEmpty && fracPart.isEmpty then none
    else some ((digitsVal intPart : ℚ) + (digitsVal fracPart : ℚ) / (10 ^ fracPart.length))
  else none

/-- The value coercion of line 65-66: numbers pass through, strings go
through `float(re.findall(r"[\d\.]+", value)[0])`.  (`null` is skipped by
the `pd.isna` check before coercion is ever reached; the `.ok 0` branch
is unreachable from `evaluate_nutrition`.) -/
def coerceVal : NutriVal → Except ParseErr ℚ
  | .num q => .ok q
  | .str s =>
    match firstRun s.data with
    | none => .error (.noNumeric s)
    | some run =>
      match pyFloatOfRun run with
      | none => .error (.badFloat s)
      | some q => .ok q
  | .null => .ok 0

/-- Message `f"Low {nutrient} ({note})"`. -/
def lowMsg (row : ThresholdEntry) : String :=
  "Low " ++ row.nutrient ++ " (" ++ row.note ++ ")"

/-- Message `f"High {nutrient} ({note})"`. -/
def highMsg (row : ThresholdEntry) : String :=
  "High " ++ row.nutrient ++ " (" ++ row.note ++ ")"

/-- Message `f"Balanced {nutrient}"`. -/
def balancedMsg (row : ThresholdEntry) : String :=
  "Balanced " ++ row.nutrient

/-- Source `evaluate_nutrition` (model2.py lines 58-76).  The loop walks the
threshold table in order; a raised exception aborts the whole call, which
the `Except` recursion mirrors (findings gathered before the bad row are
discarded exactly as in Python). -/
def evaluate_nutrition (nutrition_input : List (String × NutriVal)) :
    List ThresholdEntry → Except ParseErr (List String × List String)
  | [] => .ok ([], [])
  | row :: rest =>
    match dictLookup nutrition_input row.nutrient with
    | none => evaluate_nutrition nutrition_input rest
    | some .null => evaluate_nutrition nutrition_input rest
    | some v =>
      match coerceVal v with
      | .error e => .error e
      | .ok value =>
        match evaluate_nutrition nutrition_input rest with
        | .error e => .error e
        | .ok (pros, cons) =>
          if value < row.low_threshold then .ok (pros, lowMsg row :: cons)
          else if value > row.high_threshold then .ok (pros, highMsg row :: cons)
          else .ok (balancedMsg row :: pros, cons)

/-- Spec-side description of the single pro a threshold row can emit. -/
def proSpec (input : List (String × NutriVal)) (row : ThresholdEntry) : Option String :=
  match dictLookup input row.nutrient with
  | some (.num v) =>
    if ¬ v < row.low_threshold ∧ ¬ v > row.high_threshold
    then some (balancedMsg row) else none
  | _ => none

/-- Spec-side description of the single con a threshold row can emit. -/
def conSpec (input : List (String × NutriVal)) (row : ThresholdEntry) : Option String :=
  match dictLookup input row.nutrient with
  | some (.num v) =>
    if v < row.low_threshold then some (lowMsg row)
    else if v > row.high_threshold then some (highMsg row)
    else none
  | _ => none

/-- Whether a nutrition value is text. -/
def NutriVal.isStr : NutriVal → Bool
  | .str _ => true
  | _ => false

theorem dictLookup_not_str {input : List (String × NutriVal)}
    (hnum : ∀ kv ∈ input, kv.2.isStr = false) (k : String) (s : String) :
    dictLookup input k ≠ some (.str s) := by
  intro h
  unfold dictLookup at h
  rcases Option.map_eq_some'.mp h with ⟨kv, hfind, hsnd⟩
  have hmem := List.mem_of_find?_eq_some hfind
  have := hnum kv hmem
  rw [hsnd] at this
  simp [NutriVal.isStr] at this

/-- C6: for every threshold row whose nutrient is present with a non-null
(numeric) value `v`, `evaluate_nutrition` emits exactly one finding:
the con `Low {nutrient} ({note})` iff `v < low_threshold`, the con
`High {nutrient} ({note})` iff `v > high_threshold`, otherwise the pro
`Balanced {nutrient}` — pros and cons in threshold-table order (first
conjunct, a full characterization of the output); a row never yields
both a pro and a con (second conjunct); and a value exactly equal to a
bound counts as balanced (third conjunct). -/
theorem C6_nutrient_evaluation :
    (∀ (input : List (String × NutriVal)), (∀ kv ∈ input, kv.2.isStr = false) →
      ∀ df : List ThresholdEntry,
        evaluate_nutrition input df
          = .ok (df.filterMap (proSpec input), df.filterMap (conSpec input)))
    ∧ (∀ (input : List (String × NutriVal)) (row : ThresholdEntry),
        (proSpec input row).isSome → conSpec input row = none)
    ∧ (∀ (input : List (String × NutriVal)) (row : ThresholdEntry) (v : ℚ),
        dictLookup input row.nutrient = some (.num v) →
        (v = row.low_threshold ∨ v = row.high_threshold) →
        row.low_threshold ≤ row.high_threshold →
        proSpec input row = some (balancedMsg row)) := by
  refine ⟨?_, ?_, ?_⟩
  · intro input hnum df
    induction df with
    | nil => rfl
    | cons row rest ih =>
      cases hlk : dictLookup input row.nutrient with
      | none =>
        simp only [evaluate_nutrition, hlk, List.filterMap_cons, proSpec, conSpec]
        exact ih
      | some v =>
        cases v with
        | null =>
          simp only [evaluate_nutrition, hlk, List.filterMap_cons, proSpec, conSpec]
          exact ih
        | str s => exact absurd hlk (dictLookup_not_str hnum _ s)
        | num q =>
          simp only [evaluate_nutrition, hlk, coerceVal, ih,
            List.filterMap_cons, proSpec, conSpec]
          by_cases h1 : q < row.low_threshold
          · simp [h1]
          · by_cases h2 : q > row.high_threshold
            · simp [h1, h2]
            · simp [h1, h2]
  · intro input row hpro
    unfold proSpec at hpro
    unfold conSpec
    cases hlk : dictLookup input row.nutrient with
    | none => rfl
    | some v =>
      cases v with
      | null => rfl
      | str s => rfl
      | num q =>
        rw [hlk] at hpro
        dsimp only at hpro ⊢
        by_cases h : ¬ q < row.low_threshold ∧ ¬ q > row.high_threshold
        · rw [if_neg h.1, if_neg h.2]
        · rw [if_neg h] at hpro
          simp at hpro
  · intro input row v hlk hbound hle
    unfold proSpec
    rw [hlk]
    dsimp only
    rw [if_pos]
    rcases hbound with h | h <;> subst h
    · exact ⟨lt_irrefl _, not_lt_of_le hle⟩
    · exact ⟨not_lt_of_le hle, lt_irrefl _⟩

/-- Witness for C6: a concrete table with one low, one high, one
balanced and one absent nutrient, one null value, evaluated end to
end. -/
theorem C6_nutrient_evaluation_witness :
    evaluate_nutrition
      [("sugar_g", .num 5), ("sodium_mg", .num 5000),
        ("fiber_g", .null), ("iron_mg", .num 0)]
      [⟨"sugar_g", 1, 10, "fine"⟩, ⟨"sodium_mg", 0, 2000, "salty"⟩,
        ⟨"fiber_g", 1, 10, "f"⟩, ⟨"iron_mg", 1, 10, "low iron"⟩,
        ⟨"zinc_mg", 1, 10, "z"⟩]
      = .ok ([balancedMsg ⟨"sugar_g", 1, 10, "fine"⟩],
          [highMsg ⟨"sodium_mg", 0, 2000, "salty"⟩,
            lowMsg ⟨"iron_mg", 1, 10, "low iron"⟩]) := by
  rw [C6_nutrient_evaluation.1 _ (by decide)]
  rfl

/-- C7: a nutrient supplied as text with no numeric substring makes the
whole `evaluate_nutrition` call fail with a parse error (the offending
nutrient is not silently skipped). -/
theorem C7_parse_error_propagates (input : List (String × NutriVal))
    (df : List ThresholdEntry) (row : ThresholdEntry) (s : String)
    (hrow : row ∈ df)
    (hlk : dictLookup input row.nutrient = some (.str s))
    (hnone : firstRun s.data = none) :
    ∃ e : ParseErr, evaluate_nutrition input df = .error e := by
  induction df with
  | nil => exact absurd hrow (List.not_mem_nil row)
  | cons r rest ih =>
    rcases List.mem_cons.mp hrow with he | hmem
    · subst he
      exact ⟨.noNumeric s, by simp only [evaluate_nutrition, hlk, coerceVal, hnone]⟩
    · obtain ⟨e, he⟩ := ih hmem
      cases hlk2 : dictLookup input r.nutrient with
      | none => exact ⟨e, by simp only [evaluate_nutrition, hlk2]; exact he⟩
      | some v =>
        cases v with
        | null => exact ⟨e, by simp only [evaluate_nutrition, hlk2]; exact he⟩
        | num q => exact ⟨e, by simp only [evaluate_nutrition, hlk2, coerceVal, he]⟩
        | str s2 =>
          cases hc : coerceVal (.str s2) with
          | error e2 => exact ⟨e2, by simp only [evaluate_nutrition, hlk2, hc]⟩
          | ok q => exact ⟨e, by simp only [evaluate_nutrition, hlk2, hc, he]⟩

/-- Witness for C7: the value `"lots"` has no numeric substring, so the
call fails. -/
theorem C7_parse_error_propagates_witness :
    ∃ e : ParseErr,
      evaluate_nutrition [("sugar_g", .str "lots")]
        [⟨"protein_g", 1, 10, "p"⟩, ⟨"sugar_g", 1, 10, "s"⟩] = .error e :=
  C7_parse_error_propagates _ _ ⟨"sugar_g", 1, 10, "s"⟩ "lots"
    (by decide) (by decide) (by decide)

/-! ## Fuzzy matcher (model2.py, `match_ingredient`)

`rapidfuzz.fuzz.ratio` is an external library function, not code of this
repository, so the matcher is parameterized by the similarity function
`sim` that the source applies to the two cleaned strings.  The claims
about the matcher concern its scan/threshold/fallback structure, which
is the repository's own code. -/

/-- Loop body of the best-score scan (model2.py lines 23-28): update
`(best_match, highest_score)` when the current score is strictly
greater. -/
def simStep (f : String → ℚ) (acc : Option String × ℚ) (ref : String) :
    Option String × ℚ :=
  if f ref > acc.2 then (some ref, f ref) else acc

/-- Token-overlap test of phase 2 (lines 31-35): does some whitespace
token of the cleaned input occur among the cleaned reference's
tokens? -/
def sharesToken (ingr_clean : String) (ref : String) : Bool :=
  (pySplit ingr_clean).any (fun word => (pySplit (clean_text ref)).contains word)

/-- Source `match_ingredient` (model2.py lines 19-36).  The returned `none`
corresponds exactly to Python's returning `None` (line 30 with
`best_match` never updated), which requires `threshold ≤ 0`. -/
def match_ingredient (sim : String → String → ℚ) (ingredient : String)
    (ingredients_list : List String) (threshold : ℚ := 80) : Option String :=
  let ingr_clean := clean_text ingredient
  let acc := ingredients_list.foldl
    (simStep (fun ref => sim ingr_clean (clean_text ref))) (none, 0)
  if acc.2 ≥ threshold then acc.1
  else
    match ingredients_list.find? (sharesToken ingr_clean) with
    | some ref => some ref
    | none => some ingredient

/-- Running maximum of the scores, seeded like the source's
`highest_score = 0`. -/
def foldMax (f : String → ℚ) (h : ℚ) (l : List String) : ℚ :=
  l.foldl (fun m r => max m (f r)) h

theorem foldl_simStep_snd (f : String → ℚ) :
    ∀ (l : List String) (b : Option String) (h : ℚ),
      (l.foldl (simStep f) (b, h)).2 = foldMax f h l := by
  intro l
  induction l with
  | nil => intro b h; rfl
  | cons r l ih =>
    intro b h
    simp only [List.foldl_cons, simStep, foldMax]
    by_cases hr : f r > h
    · rw [if_pos hr]
      have hmx : max h (f r) = f r := max_eq_right (le_of_lt hr)
      rw [hmx]
      exact ih (some r) (f r)
    · rw [if_neg hr]
      have hmx : max h (f r) = h := max_eq_left (le_of_not_lt hr)
      rw [hmx]
      exact ih b h

theorem le_foldMax_init (f : String → ℚ) :
    ∀ (l : List String) (h : ℚ), h ≤ foldMax f h l := by
  intro l
  induction l with
  | nil => intro h; exact le_refl h
  | cons r l ih =>
    intro h
    calc h ≤ max h (f r) := le_max_left _ _
      _ ≤ foldMax f (max h (f r)) l := ih _

theorem le_foldMax_of_mem (f : String → ℚ) {r : String} :
    ∀ {l : List String} (h : ℚ), r ∈ l → f r ≤ foldMax f h l := by
  intro l
  induction l with
  | nil => intro h hr; simp at hr
  | cons r' l ih =>
    intro h hr
    rcases List.mem_cons.mp hr with he | hm
    · subst he
      calc f r ≤ max h (f r) := le_max_right _ _
        _ ≤ foldMax f (max h (f r)) l := le_foldMax_init f l _
    · exact ih _ hm

theorem foldMax_le_bound (f : String → ℚ) {B : ℚ} :
    ∀ {l : List String} {h : ℚ}, h ≤ B → (∀ r ∈ l, f r ≤ B) →
      foldMax f h l ≤ B := by
  intro l
  induction l with
  | nil => intro h hB _; exact hB
  | cons r l ih =>
    intro h hB hl
    exact ih (max_le hB (hl r (List.mem_cons_self _ _)))
      (fun r' hr' => hl r' (List.mem_cons_of_mem _ hr'))

theorem foldMax_attained (f : String → ℚ) :
    ∀ {l : List String} {h : ℚ}, h < foldMax f h l →
      ∃ r ∈ l, f r = foldMax f h l := by
  intro l
  induction l with
  | nil => intro h hlt; exact absurd hlt (lt_irrefl h)
  | cons r l ih =>
    intro h hlt
    have hM : foldMax f h (r :: l) = foldMax f (max h (f r)) l := rfl
    by_cases h2 : max h (f r) < foldMax f (max h (f r)) l
    · obtain ⟨r', hr', he⟩ := ih h2
      exact ⟨r', List.mem_cons_of_mem _ hr', by rw [hM]; exact he⟩
    · have hle : foldMax f (max h (f r)) l ≤ max h (f r) := le_of_not_lt h2
      have hge : max h (f r) ≤ foldMax f (max h (f r)) l := le_foldMax_init f l _
      have heq : foldMax f (max h (f r)) l = max h (f r) := le_antisymm hle hge
      rw [hM, heq]
      rw [hM, heq] at hlt
      have : max h (f r) = f r := by
        rcases max_cases h (f r) with ⟨hc, _⟩ | ⟨hc, _⟩
        · rw [hc] at hlt; exact absurd hlt (lt_irrefl h)
        · exact hc
      exact ⟨r, List.mem_cons_self _ _, by rw [this]⟩

theorem foldl_simStep_no_update (f : String → ℚ) :
    ∀ (l : List String) (b : Option String) (h : ℚ),
      (∀ r ∈ l, f r ≤ h) → l.foldl (simStep f) (b, h) = (b, h) := by
  intro l
  induction l with
  | nil => intro b h _; rfl
  | cons r l ih =>
    intro b h hl
    simp only [List.foldl_cons, simStep]
    rw [if_neg (not_lt_of_le (hl r (List.mem_cons_self _ _)))]
    exact ih b h (fun r' hr' => hl r' (List.mem_cons_of_mem _ hr'))

/-- The scan keeps the first reference attaining the running maximum
(the source updates only on strictly greater scores). -/
theorem foldl_simStep_fst (f : String → ℚ) :
    ∀ (l : List String) (b : Option String) (h : ℚ), h < foldMax f h l →
      (l.foldl (simStep f) (b, h)).1
        = l.find? (fun r => decide (f r = foldMax f h l)) := by
  intro l
  induction l with
  | nil => intro b h hlt; exact absurd hlt (lt_irrefl h)
  | cons r l ih =>
    intro b h hlt
    have hM : foldMax f h (r :: l) = foldMax f (max h (f r)) l := rfl
    rw [hM] at hlt ⊢
    rw [List.foldl_cons]
    simp only [simStep]
    by_cases hr : f r > h
    · rw [if_pos hr]
      have hmx : max h (f r) = f r := max_eq_right (le_of_lt hr)
      rw [hmx] at hlt ⊢
      rcases lt_or_eq_of_le (le_foldMax_init f l (f r)) with h2 | h2
      · rw [List.find?_cons_of_neg _ (by simpa using ne_of_lt h2)]
        exact ih (some r) (f r) h2
      · rw [List.find?_cons_of_pos _ (by simpa using h2)]
        have hupd : l.foldl (simStep f) (some r, f r) = (some r, f r) := by
          refine foldl_simStep_no_update f l (some r) (f r) ?_
          intro r' hr'
          have hle := le_foldMax_of_mem f (f r) hr'
          rw [← h2] at hle
          exact hle
        rw [hupd]
    · rw [if_neg hr]
      have hmx : max h (f r) = h := max_eq_left (le_of_not_lt hr)
      rw [hmx] at hlt ⊢
      have hne : ¬ (f r = foldMax f h l) := by
        intro he
        have hle := le_of_not_lt hr
        rw [he] at hle
        exact absurd (lt_of_lt_of_le hlt hle) (lt_irrefl h)
      rw [List.find?_cons_of_neg _ (by simpa using hne)]
      exact ih b h hlt

/-- The effective maximum of the scan: the highest similarity between the
cleaned input and a cleaned catalog name, seeded with the source's
initial `highest_score = 0`. -/
def simMax (sim : String → String → ℚ) (ingredient : String)
    (catalog : List String) : ℚ :=
  foldMax (fun ref => sim (clean_text ingredient) (clean_text ref)) 0 catalog

/-- Function `find?` only looks at the predicate's values on the list. -/
theorem find?_congr {p q : String → Bool} :
    ∀ l : List String, (∀ r ∈ l, p r = q r) → l.find? p = l.find? q := by
  intro l
  induction l with
  | nil => intro _; rfl
  | cons r l ih =>
    intro h
    cases hp : p r with
    | true =>
      rw [List.find?_cons_of_pos _ hp, List.find?_cons_of_pos _ ((h r (by simp)) ▸ hp)]
    | false =>
      rw [List.find?_cons_of_neg _ (by simp [hp]),
        List.find?_cons_of_neg _ (by simp [← h r (by simp), hp])]
      exact ih (fun r' hr' => h r' (List.mem_cons_of_mem _ hr'))

/-- The token-overlap test depends on a reference only through its
cleaned form. -/
theorem sharesToken_congr {a b : String} (ic : String)
    (h : clean_text a = clean_text b) : sharesToken ic a = sharesToken ic b := by
  unfold sharesToken
  rw [h]

/-- C4: the two-phase resolution of `match_ingredient`.  The first
conjunct makes `simMax` the maximum of the scores.  When that maximum
reaches the threshold, the matcher returns the first catalog name (in
scan order, original spelling) attaining it, and such a name exists.
Otherwise it returns the first catalog name sharing a whitespace token
with the cleaned input, and, failing that, the original input string
unchanged. -/
theorem C4_matcher_resolution (sim : String → String → ℚ) (ingredient : String)
    (catalog : List String) (threshold : ℚ) (hpos : 0 < threshold) :
    (∀ r ∈ catalog,
      sim (clean_text ingredient) (clean_text r) ≤ simMax sim ingredient catalog)
    ∧ (threshold ≤ simMax sim ingredient catalog →
        match_ingredient sim ingredient catalog threshold
          = catalog.find? (fun r =>
              decide (sim (clean_text ingredient) (clean_text r)
                = simMax sim ingredient catalog))
        ∧ (catalog.find? (fun r =>
            decide (sim (clean_text ingredient) (clean_text r)
              = simMax sim ingredient catalog))).isSome = true)
    ∧ (simMax sim ingredient catalog < threshold →
        match_ingredient sim ingredient catalog threshold
          = some ((catalog.find? (sharesToken (clean_text ingredient))).getD
              ingredient)) := by
  refine ⟨?_, ?_, ?_⟩
  · intro r hr
    exact le_foldMax_of_mem _ 0 hr
  · intro hth
    have h0M : (0 : ℚ) < simMax sim ingredient catalog := lt_of_lt_of_le hpos hth
    constructor
    · unfold match_ingredient
      dsimp only
      rw [foldl_simStep_snd (fun ref => sim (clean_text ingredient) (clean_text ref))
        catalog none 0]
      rw [if_pos (show foldMax
        (fun ref => sim (clean_text ingredient) (clean_text ref)) 0 catalog
          ≥ threshold from hth)]
      exact foldl_simStep_fst _ catalog none 0 h0M
    · rw [List.find?_isSome]
      obtain ⟨r, hr, he⟩ := foldMax_attained _ h0M
      exact ⟨r, hr, by simpa using he⟩
  · intro hlt
    unfold match_ingredient
    dsimp only
    rw [foldl_simStep_snd (fun ref => sim (clean_text ingredient) (clean_text ref))
      catalog none 0]
    rw [if_neg (show ¬ foldMax
      (fun ref => sim (clean_text ingredient) (clean_text ref)) 0 catalog
        ≥ threshold from not_le.mpr hlt)]
    cases hf : catalog.find? (sharesToken (clean_text ingredient)) with
    | none => rfl
    | some r => rfl

/-- A similarity function for concrete witnesses: 100 on equal cleaned
strings, 0 otherwise (the properties of a normalized edit-distance ratio
that the claims rely on). -/
def eqSim (a b : String) : ℚ := if a = b then 100 else 0

/-- Witness for C4: `"Sugar!"` cleans to `"sugar"`, scores 100 against
catalog entry `"sugar"` and 0 against `"salt"`, so phase 1 fires and the
first maximal entry is returned. -/
theorem C4_matcher_resolution_witness :
    match_ingredient eqSim "Sugar!" ["salt", "sugar"] 80 = some "sugar" := by
  have h := (C4_matcher_resolution eqSim "Sugar!" ["salt", "sugar"] 80
    (by norm_num)).2.1 (by decide)
  rw [h.1]
  decide

/-- C9: the matcher is idempotent on catalog members: whenever
`match_ingredient sim x catalog t = some y` with `y ∈ catalog` (and `sim`
is a 0-100 similarity with `sim a a = 100`, `sim a b = 100 → a = b`, and
`0 < t ≤ 100`), matching `y` again returns `y` itself. -/
theorem C9_matcher_idempotent (sim : String → String → ℚ) (t : ℚ)
    (h0 : 0 < t) (ht : t ≤ 100)
    (h100 : ∀ a, sim a a = 100)
    (hle : ∀ a b, sim a b ≤ 100)
    (heq : ∀ a b, sim a b = 100 → a = b)
    (x y : String) (catalog : List String)
    (hmem : y ∈ catalog)
    (hy : match_ingredient sim x catalog t = some y) :
    match_ingredient sim y catalog t = some y := by
  -- matching y itself always takes phase 1, with maximum score 100
  have hMy : foldMax (fun ref => sim (clean_text y) (clean_text ref)) 0 catalog
      = 100 := by
    refine le_antisymm ?_ ?_
    · exact foldMax_le_bound _ (by norm_num) (fun r _ => hle _ _)
    · calc (100 : ℚ) = sim (clean_text y) (clean_text y) := (h100 _).symm
        _ ≤ _ := le_foldMax_of_mem
          (fun ref => sim (clean_text y) (clean_text ref)) 0 hmem
  have hmatch : match_ingredient sim y catalog t
      = catalog.find? (fun r => decide (clean_text r = clean_text y)) := by
    unfold match_ingredient
    dsimp only
    rw [foldl_simStep_snd (fun ref => sim (clean_text y) (clean_text ref))
      catalog none 0]
    rw [hMy, if_pos (by linarith : (100 : ℚ) ≥ t)]
    rw [foldl_simStep_fst _ catalog none 0 (by rw [hMy]; linarith)]
    refine find?_congr catalog ?_
    intro r _
    rw [hMy]
    by_cases hc : clean_text r = clean_text y
    · rw [decide_eq_true hc, decide_eq_true (by rw [hc]; exact h100 _)]
    · rw [decide_eq_false hc, decide_eq_false
        (fun h => hc ((heq _ _ h).symm))]
  rw [hmatch]
  refine List.find?_eq_some.mpr ⟨by simp, ?_⟩
  -- it remains to show no earlier catalog entry has y's cleaned form,
  -- which follows from y being the first hit of whichever phase chose it
  unfold match_ingredient at hy
  dsimp only at hy
  rw [foldl_simStep_snd (fun ref => sim (clean_text x) (clean_text ref))
    catalog none 0] at hy
  by_cases hphase :
      foldMax (fun ref => sim (clean_text x) (clean_text ref)) 0 catalog ≥ t
  · -- phase 1: y is the first entry attaining the maximum score for x
    rw [if_pos hphase] at hy
    rw [foldl_simStep_fst _ catalog none 0 (lt_of_lt_of_le h0 hphase)] at hy
    obtain ⟨hpy, as, bs, hsplit, hprev⟩ := List.find?_eq_some.mp hy
    refine ⟨as, bs, hsplit, ?_⟩
    intro a ha
    have hpa := hprev a ha
    simp only [Bool.not_eq_true', decide_eq_false_iff_not] at hpa ⊢
    intro hc
    apply hpa
    have : sim (clean_text x) (clean_text a) = sim (clean_text x) (clean_text y) := by
      rw [hc]
    rw [this]
    exact of_decide_eq_true hpy
  · -- phase 2 or 3
    rw [if_neg hphase] at hy
    cases hf : catalog.find? (sharesToken (clean_text x)) with
    | none =>
      -- phase 3 would return x itself; x ∈ catalog makes its own score 100,
      -- contradicting the failed threshold test
      rw [hf] at hy
      simp only [Option.some_inj] at hy
      exfalso
      apply hphase
      have hsc : sim (clean_text x) (clean_text y) = 100 := by
        rw [← hy]; exact h100 _
      have hb := le_foldMax_of_mem
        (fun ref => sim (clean_text x) (clean_text ref)) 0 hmem
      dsimp only at hb
      rw [hsc] at hb
      linarith
    | some r =>
      -- phase 2: y is the first entry sharing a token with x's cleaned form
      rw [hf] at hy
      simp only [Option.some_inj] at hy
      subst hy
      obtain ⟨hpy, as, bs, hsplit, hprev⟩ := List.find?_eq_some.mp hf
      refine ⟨as, bs, hsplit, ?_⟩
      intro a ha
      have hpa := hprev a ha
      simp only [Bool.not_eq_true'] at hpa ⊢
      rw [decide_eq_false_iff_not]
      intro hc
      rw [sharesToken_congr _ hc] at hpa
      rw [hpa] at hpy
      exact Bool.false_ne_true hpy

/-- Witness for C9: `eqSim` satisfies all similarity hypotheses, and
matching the already-matched catalog member `"sugar"` returns itself. -/
theorem C9_matcher_idempotent_witness :
    match_ingredient eqSim "sugar" ["salt", "sugar"] 80 = some "sugar" := by
  refine C9_matcher_idempotent eqSim 80 (by norm_num) (by norm_num)
    (fun a => by simp [eqSim])
    (fun a b => by unfold eqSim; split <;> norm_num)
    (fun a b h => by
      by_cases hc : a = b
      · exact hc
      · rw [eqSim, if_neg hc] at h; norm_num at h)
    "sugar" "sugar" ["salt", "sugar"] (by decide) (by decide)

/-! ## Safety classifier and orchestrator (model2.py `detect_ingredients`
and `analyze_product`, model3.py `compute_safety_score_from_model2_output`) -/

/-- One row of the ingredient-safety catalog (`ingredient_safety_df`). -/
structure CatalogEntry where
  ingredient_name : String
  safety_status : String
  reason_for_unsafety : String
deriving DecidableEq

/-- With a positive threshold, `match_ingredient` never returns `none`
(so Python's `canonical_name.lower()` on line 42 cannot crash). -/
theorem match_ingredient_isSome (sim : String → String → ℚ) (i : String)
    (l : List String) {t : ℚ} (ht : 0 < t) :
    (match_ingredient sim i l t).isSome = true := by
  unfold match_ingredient
  dsimp only
  rw [foldl_simStep_snd (fun ref => sim (clean_text i) (clean_text ref)) l none 0]
  by_cases h : foldMax (fun ref => sim (clean_text i) (clean_text ref)) 0 l ≥ t
  · rw [if_pos h]
    rw [foldl_simStep_fst _ l none 0 (lt_of_lt_of_le ht h)]
    rw [List.find?_isSome]
    obtain ⟨r, hr, he⟩ := foldMax_attained _ (lt_of_lt_of_le ht h)
    exact ⟨r, hr, by simpa using he⟩
  · rw [if_neg h]
    cases hf : l.find? (sharesToken (clean_text i)) <;> simp

/-- The catalog row lookup of lines 42-48: the first row whose
lower-cased `ingredient_name` equals the lower-cased canonical name
provides status and reason; a miss yields the unknown finding. -/
def lookupSafety (df : List CatalogEntry) (canonical : String) : Finding :=
  match df.find? (fun e => pyLower e.ingredient_name == pyLower canonical) with
  | some e => ⟨canonical, e.safety_status, e.reason_for_unsafety⟩
  | none => ⟨canonical, "unknown", "No information available"⟩

/-- One iteration of the `detect_ingredients` loop (lines 40-53).  The
`none` branch is unreachable for the fixed threshold 80
(`match_ingredient_isSome`); Python there would crash on
`None.lower()`. -/
def detectOne (sim : String → String → ℚ) (df : List CatalogEntry)
    (ingredients_list : List String) (ingr : String) : Finding :=
  match match_ingredient sim ingr ingredients_list 80 with
  | some canonical => lookupSafety df canonical
  | none => ⟨ingr, "unknown", "No information available"⟩

/-- The severity key of lines 54-55:
`{"unsafe": 0, "caution": 1, "safe": 2, "unknown": 3}.get(status, 3)`. -/
def sevOf (f : Finding) : ℕ :=
  if f.status = "unsafe" then 0
  else if f.status = "caution" then 1
  else if f.status = "safe" then 2
  else if f.status = "unknown" then 3
  else 3

/-- The `results` list of `detect_ingredients` before sorting, in input
order. -/
def detectRaw (sim : String → String → ℚ) (ingredients_input : List String)
    (df : List CatalogEntry) (ingredients_list : List String) : List Finding :=
  ingredients_input.map (detectOne sim df ingredients_list)

/-- Python `sorted(results, key=lambda x: order.get(x['status'], 3))` (line 55).
Python's `sorted` is a stable sort by key; for a key ranging over
{0,1,2,3} a stable sort by key is exactly the concatenation of the
equal-key sublists in key order, which is how it is embedded. -/
def sortBySeverity (l : List Finding) : List Finding :=
  (l.filter fun f => decide (sevOf f = 0)) ++ (l.filter fun f => decide (sevOf f = 1))
    ++ (l.filter fun f => decide (sevOf f = 2))
    ++ (l.filter fun f => decide (sevOf f = 3))

/-- Source `detect_ingredients` (model2.py lines 38-56). -/
def detect_ingredients (sim : String → String → ℚ)
    (ingredients_input : List String) (ingredient_safety_df : List CatalogEntry)
    (ingredients_list : List String) : List Finding :=
  sortBySeverity (detectRaw sim ingredients_input ingredient_safety_df ingredients_list)

/-- The product record consumed by `analyze_product`: each `.get` key may
be absent. -/
structure ProductJson where
  product_name : Option String
  ingredients : Option (List String)
  nutrition : Option (List (String × NutriVal))

/-- The result dict of `analyze_product` (model2.py lines 84-89): exactly
the keys `product_name`, `ingredient_analysis`, `nutrition_pros`,
`nutrition_cons`.  The two trailing optional fields stand for the
`nutrition`/`nutrition_info` keys that `compute_safety_score_from_model2_output`
probes with `.get`; `analyze_product` never sets them (they stay `none`,
i.e. absent). -/
structure Model2Output where
  product_name : String
  ingredient_analysis : List Finding
  nutrition_pros : List String
  nutrition_cons : List String
  nutrition : Option (List (String × Option ℚ)) := none
  nutrition_info : Option (List (String × Option ℚ)) := none
deriving DecidableEq

/-- Source `analyze_product` (model2.py lines 78-90).  A `ParseErr` raised by
`evaluate_nutrition` propagates out of the call. -/
def analyze_product (sim : String → String → ℚ) (product_json : ProductJson)
    (ingredient_safety_df : List CatalogEntry) (nutrition_df : List ThresholdEntry)
    (ingredients_list : List String) : Except ParseErr Model2Output :=
  let ingredients_input := product_json.ingredients.getD []
  let nutrition_input := product_json.nutrition.getD []
  let product_name := product_json.product_name.getD "Unnamed Product"
  let ingredient_analysis :=
    detect_ingredients sim ingredients_input ingredient_safety_df ingredients_list
  match evaluate_nutrition nutrition_input nutrition_df with
  | .error e => .error e
  | .ok (nutrition_pros, nutrition_cons) =>
    .ok { product_name := product_name,
          ingredient_analysis := ingredient_analysis,
          nutrition_pros := nutrition_pros,
          nutrition_cons := nutrition_cons }

/-- Source `compute_safety_score_from_model2_output` (model3.py lines 104-120).
The `or` chain `get("nutrition", None) or get("nutrition_info", None) or
None` picks the first truthy (present and nonempty) dict, else `None`
(embedded as `[]`, the falsy value `compute_safety_score` receives). -/
def compute_safety_score_from_model2_output (model2_output : Model2Output)
    (weight_ingredient : ℚ := 6/10) (weight_nutrition : ℚ := 4/10) : ℚ :=
  let ingredient_analysis := model2_output.ingredient_analysis
  let nutrition_info :=
    if model2_output.nutrition.getD [] ≠ [] then model2_output.nutrition.getD []
    else if model2_output.nutrition_info.getD [] ≠ []
      then model2_output.nutrition_info.getD []
    else []
  let pros := model2_output.nutrition_pros
  let cons := model2_output.nutrition_cons
  compute_safety_score ingredient_analysis nutrition_info (some pros) (some cons)
    weight_ingredient weight_nutrition

theorem sevOf_le_three (f : Finding) : sevOf f ≤ 3 := by
  unfold sevOf
  split_ifs <;> norm_num

theorem sev_of_mem_bucket {l : List Finding} {t : ℕ} {f : Finding}
    (hf : f ∈ l.filter fun g => decide (sevOf g = t)) : sevOf f = t := by
  have := (List.mem_filter.mp hf).2
  simpa using this

theorem pairwise_flatten_buckets (l : List Finding) :
    ∀ ts : List ℕ, ts.Pairwise (· ≤ ·) →
      ((ts.map fun t => l.filter fun f => decide (sevOf f = t)).flatten).Pairwise
        (fun a b => sevOf a ≤ sevOf b) := by
  intro ts
  induction ts with
  | nil => intro _; simp
  | cons t ts ih =>
    intro hp
    rw [List.map_cons, List.flatten_cons, List.pairwise_append]
    rcases List.pairwise_cons.mp hp with ⟨hts, hp'⟩
    refine ⟨?_, ih hp', ?_⟩
    · refine List.pairwise_of_forall_mem_list ?_
      intro a ha b hb
      rw [sev_of_mem_bucket ha, sev_of_mem_bucket hb]
    · intro a ha b hb
      rw [sev_of_mem_bucket ha]
      obtain ⟨L, hL, hbL⟩ := List.mem_flatten.mp hb
      obtain ⟨u, hu, hLu⟩ := List.mem_map.mp hL
      rw [← hLu] at hbL
      rw [sev_of_mem_bucket hbL]
      exact hts u hu

theorem sortBySeverity_pairwise (l : List Finding) :
    (sortBySeverity l).Pairwise (fun a b => sevOf a ≤ sevOf b) := by
  have he : sortBySeverity l
      = (([0, 1, 2, 3] : List ℕ).map fun t =>
          l.filter fun f => decide (sevOf f = t)).flatten := by
    simp [sortBySeverity, List.append_assoc]
  rw [he]
  exact pairwise_flatten_buckets l [0, 1, 2, 3] (by decide)

theorem bucket_filter (l : List Finding) (u t : ℕ) :
    (l.filter fun f => decide (sevOf f = u)).filter (fun f => decide (sevOf f = t))
      = if u = t then l.filter (fun f => decide (sevOf f = t)) else [] := by
  rw [List.filter_filter]
  by_cases h : u = t
  · subst h
    rw [if_pos rfl]
    exact List.filter_congr (fun a _ => Bool.and_self _)
  · rw [if_neg h]
    rw [List.filter_eq_nil_iff]
    intro a _
    simp only [Bool.and_eq_true, decide_eq_true_eq, not_and]
    intro h1 h2
    exact h (h2.symm.trans h1)

theorem sortBySeverity_stable (l : List Finding) (t : ℕ) :
    (sortBySeverity l).filter (fun f => decide (sevOf f = t))
      = l.filter (fun f => decide (sevOf f = t)) := by
  unfold sortBySeverity
  rw [List.filter_append, List.filter_append, List.filter_append,
    bucket_filter, bucket_filter, bucket_filter, bucket_filter]
  by_cases h0 : t = 0
  · subst h0; simp
  by_cases h1 : t = 1
  · subst h1; simp
  by_cases h2 : t = 2
  · subst h2; simp
  by_cases h3 : t = 3
  · subst h3; simp
  rw [if_neg (by omega), if_neg (by omega), if_neg (by omega), if_neg (by omega)]
  have hnil : l.filter (fun f => decide (sevOf f = t)) = [] := by
    rw [List.filter_eq_nil_iff]
    intro a _
    simp only [decide_eq_true_eq]
    have := sevOf_le_three a
    omega
  rw [hnil]
  simp

/-- C5: the `ingredient_analysis` of `analyze_product` is sorted by tier
severity, non-decreasing under unsafe(0) < caution(1) < safe(2) <
unknown(3), and the sort is stable: for every severity value, the
equal-tier findings appear exactly in the input (pre-sort) order of the
corresponding ingredient strings. -/
theorem C5_ingredient_analysis_sorted (sim : String → String → ℚ)
    (p : ProductJson) (isdf : List CatalogEntry) (ndf : List ThresholdEntry)
    (names : List String) (out : Model2Output)
    (h : analyze_product sim p isdf ndf names = .ok out) :
    out.ingredient_analysis.Pairwise (fun a b => sevOf a ≤ sevOf b)
    ∧ ∀ t : ℕ,
        out.ingredient_analysis.filter (fun f => decide (sevOf f = t))
          = (detectRaw sim (p.ingredients.getD []) isdf names).filter
              (fun f => decide (sevOf f = t)) := by
  unfold analyze_product at h
  dsimp only at h
  cases he : evaluate_nutrition (p.nutrition.getD []) ndf with
  | error e =>
    rw [he] at h
    exact absurd h (by simp)
  | ok pc =>
    obtain ⟨pros, cons⟩ := pc
    rw [he] at h
    simp only [Except.ok.injEq] at h
    subst h
    exact ⟨sortBySeverity_pairwise _, fun t => sortBySeverity_stable _ t⟩

/-- Witness for C5: three ingredients resolving to caution, unsafe and
unknown tiers come back sorted unsafe-first, and the unknown bucket
matches the pre-sort order. -/
theorem C5_ingredient_analysis_sorted_witness :
    (([⟨"lead", "unsafe", "heavy metal"⟩, ⟨"sugar", "caution", "sweet"⟩,
        ⟨"Mystery", "unknown", "No information available"⟩] :
      List Finding).Pairwise fun a b => sevOf a ≤ sevOf b)
    ∧ ([⟨"lead", "unsafe", "heavy metal"⟩, ⟨"sugar", "caution", "sweet"⟩,
        ⟨"Mystery", "unknown", "No information available"⟩] :
        List Finding).filter (fun f => decide (sevOf f = 3))
        = (detectRaw eqSim ["Sugar!", "Lead", "Mystery"]
            [⟨"sugar", "caution", "sweet"⟩, ⟨"lead", "unsafe", "heavy metal"⟩]
            ["sugar", "lead"]).filter (fun f => decide (sevOf f = 3)) := by
  have h := C5_ingredient_analysis_sorted eqSim
    ⟨some "Choco", some ["Sugar!", "Lead", "Mystery"], some [("sugar_g", .num 5)]⟩
    [⟨"sugar", "caution", "sweet"⟩, ⟨"lead", "unsafe", "heavy metal"⟩]
    [⟨"sugar_g", 1, 10, "fine"⟩] ["sugar", "lead"]
    ⟨"Choco",
      [⟨"lead", "unsafe", "heavy metal"⟩, ⟨"sugar", "caution", "sweet"⟩,
        ⟨"Mystery", "unknown", "No information available"⟩],
      ["Balanced sugar_g"], [], none, none⟩ rfl
  exact ⟨h.1, h.2 3⟩

/-- C10: `analyze_product` returns exactly the four keys `product_name`,
`ingredient_analysis`, `nutrition_pros`, `nutrition_cons` — no numeric
nutrition snapshot key — so `compute_safety_score_from_model2_output`
applied to its result always passes an empty (falsy) numeric dict to
`compute_safety_score`, whose nutrition sub-score therefore comes from
the pros/cons fallback, never the numeric-snapshot branch. -/
theorem C10_scoring_uses_proscons_fallback (sim : String → String → ℚ)
    (p : ProductJson) (isdf : List CatalogEntry) (ndf : List ThresholdEntry)
    (names : List String) (out : Model2Output) (wi wn : ℚ)
    (h : analyze_product sim p isdf ndf names = .ok out) :
    out.nutrition = none ∧ out.nutrition_info = none
    ∧ compute_safety_score_from_model2_output out wi wn
        = compute_safety_score out.ingredient_analysis []
            (some out.nutrition_pros) (some out.nutrition_cons) wi wn
    ∧ nutri_sub_score [] (some out.nutrition_pros) (some out.nutrition_cons)
        = compute_nutrition_score_from_pros_cons
            out.nutrition_pros out.nutrition_cons := by
  unfold analyze_product at h
  dsimp only at h
  cases he : evaluate_nutrition (p.nutrition.getD []) ndf with
  | error e =>
    rw [he] at h
    exact absurd h (by simp)
  | ok pc =>
    obtain ⟨pros, cons⟩ := pc
    rw [he] at h
    simp only [Except.ok.injEq] at h
    subst h
    refine ⟨rfl, rfl, ?_, rfl⟩
    unfold compute_safety_score_from_model2_output
    simp

/-- Witness for C10: the concrete analysis of C5's product is scored via
the pros/cons fallback. -/
theorem C10_scoring_uses_proscons_fallback_witness :
    compute_safety_score_from_model2_output
      ⟨"Choco",
        [⟨"lead", "unsafe", "heavy metal"⟩, ⟨"sugar", "caution", "sweet"⟩,
          ⟨"Mystery", "unknown", "No information available"⟩],
        ["Balanced sugar_g"], [], none, none⟩ (6/10) (4/10)
      = compute_safety_score
          [⟨"lead", "unsafe", "heavy metal"⟩, ⟨"sugar", "caution", "sweet"⟩,
            ⟨"Mystery", "unknown", "No information available"⟩] []
          (some ["Balanced sugar_g"]) (some []) (6/10) (4/10) :=
  (C10_scoring_uses_proscons_fallback eqSim
    ⟨some "Choco", some ["Sugar!", "Lead", "Mystery"], some [("sugar_g", .num 5)]⟩
    [⟨"sugar", "caution", "sweet"⟩, ⟨"lead", "unsafe", "heavy metal"⟩]
    [⟨"sugar_g", 1, 10, "fine"⟩] ["sugar", "lead"]
    ⟨"Choco",
      [⟨"lead", "unsafe", "heavy metal"⟩, ⟨"sugar", "caution", "sweet"⟩,
        ⟨"Mystery", "unknown", "No information available"⟩],
      ["Balanced sugar_g"], [], none, none⟩ (6/10) (4/10) rfl).2.2.1

end FoodSafety
